import Mathlib

/-!
# Formal model of the hotel rate breakdown calculator

This file embeds the two core functions of `streamlit_app.py` — the forward
computation `compute_breakdown` and the reverse solver `find_base_from_total` —
as executable Lean functions over `ℚ`, and proves properties about them.

Modelling conventions:

* Python `Decimal` values are modelled as exact rationals.  All amounts in the
  program are produced by `quantize` to two decimal places, so they are exact
  decimal fractions; the claims under study all concern the exact decimal
  semantics of the arithmetic (the `Decimal` context precision of 10
  significant digits is never exceeded for the in-range amounts the
  application handles, and the specification mandates exact decimal
  semantics).
* Python `float` round-trips (`Decimal(str(x))`, `float(d)`) are modelled as
  the identity: every value crossing that boundary in the program is a
  two-decimal-place amount, for which the conversion through the shortest
  float representation is exact.
* `ROUND_HALF_UP` on `Decimal` rounds to the nearest unit with ties away from
  zero; `ROUND_UP` rounds away from zero.  Both are modelled explicitly via
  `Int.floor` / `Int.ceil`.
-/

namespace RateTool

/-- `Decimal` rounding mode `ROUND_HALF_UP`, to an integer: round to the
nearest integer, ties away from zero. -/
def roundHalfUp (y : ℚ) : ℤ := if 0 ≤ y then ⌊y + 1/2⌋ else -⌊-y + 1/2⌋

/-- `Decimal` rounding mode `ROUND_UP`, to an integer: round away from zero
(`to_integral_value(rounding=ROUND_UP)`). -/
def roundAwayFromZero (y : ℚ) : ℤ := if 0 ≤ y then ⌈y⌉ else ⌊y⌋

/-- `x.quantize(Decimal("0.01"), rounding=ROUND_HALF_UP)`: round to a whole
number of cents, halves away from zero. -/
def quantizeCent (x : ℚ) : ℚ := (roundHalfUp (100 * x) : ℚ) / 100

/-- `STATE_TAX_RATE = Decimal("0.06875")` -/
def STATE_TAX_RATE : ℚ := 6875 / 100000

/-- `CITY_TAX_RATE = Decimal("0.01125")` -/
def CITY_TAX_RATE : ℚ := 1125 / 100000

/-- `LODGING_TAX_RATE = Decimal("0.05")` -/
def LODGING_TAX_RATE : ℚ := 5 / 100

/-- The result tuple `(base, state_tax, city_tax, lodging_tax, total)` of
`compute_breakdown` / `find_base_from_total`. -/
structure Breakdown where
  base : ℚ
  state_tax : ℚ
  city_tax : ℚ
  lodging_tax : ℚ
  total : ℚ
deriving DecidableEq, Repr

/-- `compute_breakdown(base)`: quantize the input to the cent (HALF_UP), apply
the state tax rounded up (away from zero) to the next cent, the city and
lodging taxes rounded HALF_UP to the cent, and sum. -/
def compute_breakdown (base : ℚ) : Breakdown :=
  let base_dec := quantizeCent base
  let state_tax : ℚ := (roundAwayFromZero (base_dec * STATE_TAX_RATE * 100) : ℚ) / 100
  let city_tax := quantizeCent (base_dec * CITY_TAX_RATE)
  let lodging_tax := quantizeCent (base_dec * LODGING_TAX_RATE)
  ⟨base_dec, state_tax, city_tax, lodging_tax,
    base_dec + state_tax + city_tax + lodging_tax⟩

/-- One candidate record collected by the narrow search of
`find_base_from_total`: the tuple
`(candidate_base, residual_state, city_tax, lodging_tax, total_dec, diff)`. -/
structure Cand where
  base : ℚ
  residual_state : ℚ
  city_tax : ℚ
  lodging_tax : ℚ
  total : ℚ
  diff : ℚ
deriving DecidableEq, Repr

/-- The body of the narrow-search loop of `find_base_from_total` for one
candidate base: skip non-positive candidates, predict city/lodging/state
taxes, compute the residual state tax needed to hit the total, skip negative
residuals, and accept the candidate when the residual deviates from the
predicted state tax by at most one cent. -/
def narrowCandidate (total_dec candidate_base : ℚ) : Option Cand :=
  if candidate_base ≤ 0 then none else
  let city_tax := quantizeCent (candidate_base * CITY_TAX_RATE)
  let lodging_tax := quantizeCent (candidate_base * LODGING_TAX_RATE)
  let predicted_state : ℚ :=
    (roundAwayFromZero (candidate_base * STATE_TAX_RATE * 100) : ℚ) / 100
  let residual_state := quantizeCent (total_dec - candidate_base - city_tax - lodging_tax)
  if residual_state < 0 then none
  else if |residual_state - predicted_state| ≤ 1 / 100 then
    some ⟨candidate_base, residual_state, city_tax, lodging_tax, total_dec,
      residual_state - predicted_state⟩
  else none

/-- The candidate bases examined by the narrow search:
`naive_base - cents_offset * 0.01` for `cents_offset in range(0, 21)` —
the naive base and the twenty one-cent steps below it. -/
def narrowBases (naive_base : ℚ) : List ℚ :=
  (List.range 21).map fun cents_offset : ℕ => naive_base - (cents_offset : ℚ) / 100

/-- The first component of the Python sort key
`(-(diff > 0), base)`: `-1` when the candidate has a positive diff, else `0`. -/
def candRank (c : Cand) : ℤ := if 0 < c.diff then -1 else 0

/-- Strict lexicographic order on the Python sort key `(-(diff > 0), base)`. -/
def candLt (a b : Cand) : Prop :=
  candRank a < candRank b ∨ (candRank a = candRank b ∧ a.base < b.base)

instance (a b : Cand) : Decidable (candLt a b) := by
  unfold candLt; infer_instance

/-- `candidates.sort(key=lambda x: (-(x[5] > 0), x[0]))` followed by taking
`candidates[0]`: the first element of the stable sort by that key, i.e. the
earliest element with the lexicographically least key.  (In the program the
candidate bases are pairwise distinct, so the keys are distinct and this is
simply the unique least element.) -/
def chooseBest : List Cand → Option Cand
  | [] => none
  | c :: cs => some (cs.foldl (fun m x => if candLt x m then x else m) c)

/-- The offsets scanned by the exhaustive fallback search:
`range(-300, 301)`, in increasing order. -/
def fallbackOffsets : List ℤ :=
  (List.range 601).map fun i : ℕ => (i : ℤ) - 300

/-- The body of the fallback loop of `find_base_from_total` for one offset:
quantize `approx_base + offset` to the cent, skip non-positive candidates,
recompute the forward breakdown and accept on a match within half a cent. -/
def fallbackStep (total_dec approx_base : ℚ) (offset_cents : ℤ) : Option Breakdown :=
  let candidate := quantizeCent (approx_base + (offset_cents : ℚ) / 100)
  if candidate ≤ 0 then none else
  let r := compute_breakdown candidate
  if |r.total - total_dec| < 5 / 1000 then some r else none

/-- `find_base_from_total(target_total)`: quantize the target, estimate the
naive base by dividing out the combined rate, search the 21 one-cent
candidates at and below the naive base, pick the best accepted candidate by
the sort key (preferring positive diff, then smaller base); when none is
accepted, fall back to the exhaustive scan of the 601 one-cent offsets within
\$3.00 of the unquantized estimate, returning the first forward breakdown
that matches the target within half a cent. -/
def find_base_from_total (target_total : ℚ) : Option Breakdown :=
  let total_dec := quantizeCent target_total
  let combined := 1 + STATE_TAX_RATE + CITY_TAX_RATE + LODGING_TAX_RATE
  let naive_base := quantizeCent (total_dec / combined)
  match chooseBest ((narrowBases naive_base).filterMap (narrowCandidate total_dec)) with
  | some c => some ⟨c.base, c.residual_state, c.city_tax, c.lodging_tax, c.total⟩
  | none =>
      let approx_base := total_dec / combined
      fallbackOffsets.findSome? (fallbackStep total_dec approx_base)

/-! ### Basic properties of the rounding primitives -/

theorem floor_add_half_intCast (m : ℤ) : ⌊(m : ℚ) + 1/2⌋ = m := by
  rw [Int.floor_int_add]
  norm_num

theorem roundHalfUp_intCast (m : ℤ) : roundHalfUp (m : ℚ) = m := by
  unfold roundHalfUp
  split
  · exact floor_add_half_intCast m
  · rw [show -(m : ℚ) = ((-m : ℤ) : ℚ) by push_cast; ring, floor_add_half_intCast]
    omega

theorem roundHalfUp_nonneg_eq {y : ℚ} (h : 0 ≤ y) : roundHalfUp y = ⌊y + 1/2⌋ := by
  unfold roundHalfUp
  rw [if_pos h]

theorem roundHalfUp_mono {x y : ℚ} (h : x ≤ y) : roundHalfUp x ≤ roundHalfUp y := by
  unfold roundHalfUp
  rcases le_or_lt 0 x with hx | hx
  · rw [if_pos hx, if_pos (hx.trans h)]
    exact Int.floor_le_floor (by linarith)
  · rcases le_or_lt 0 y with hy | hy
    · rw [if_neg (not_le.mpr hx), if_pos hy]
      have h1 : (0 : ℤ) ≤ ⌊-x + 1/2⌋ := Int.floor_nonneg.mpr (by linarith)
      have h2 : (0 : ℤ) ≤ ⌊y + 1/2⌋ := Int.floor_nonneg.mpr (by linarith)
      omega
    · rw [if_neg (not_le.mpr hx), if_neg (not_le.mpr hy)]
      have : ⌊-y + 1/2⌋ ≤ ⌊-x + 1/2⌋ := Int.floor_le_floor (by linarith)
      omega

theorem roundHalfUp_le (y : ℚ) : (roundHalfUp y : ℚ) ≤ y + 1/2 := by
  unfold roundHalfUp
  split
  · exact Int.floor_le _
  · have := Int.sub_one_lt_floor (-y + 1/2)
    push_cast
    linarith

theorem le_roundHalfUp (y : ℚ) : y - 1/2 ≤ (roundHalfUp y : ℚ) := by
  unfold roundHalfUp
  split
  · have := Int.sub_one_lt_floor (y + 1/2)
    linarith
  · have := Int.floor_le (-y + 1/2)
    push_cast
    linarith

theorem roundAwayFromZero_of_nonneg {y : ℚ} (h : 0 ≤ y) :
    roundAwayFromZero y = ⌈y⌉ := by
  unfold roundAwayFromZero
  rw [if_pos h]

theorem roundAwayFromZero_mono {x y : ℚ} (h : x ≤ y) :
    roundAwayFromZero x ≤ roundAwayFromZero y := by
  unfold roundAwayFromZero
  rcases le_or_lt 0 x with hx | hx
  · rw [if_pos hx, if_pos (hx.trans h)]
    exact Int.ceil_le_ceil h
  · rcases le_or_lt 0 y with hy | hy
    · rw [if_neg (not_le.mpr hx), if_pos hy]
      have h1 : ⌊x⌋ ≤ 0 := Int.floor_nonpos hx.le
      have h2 : (0 : ℤ) ≤ ⌈y⌉ := Int.ceil_nonneg hy
      omega
    · rw [if_neg (not_le.mpr hx), if_neg (not_le.mpr hy)]
      exact Int.floor_le_floor h

/-- Exact multiples of one cent: the values representable as `Decimal`
amounts with two decimal places. -/
def CentMult (x : ℚ) : Prop := ∃ m : ℤ, x = (m : ℚ) / 100

theorem CentMult.add {x y : ℚ} : CentMult x → CentMult y → CentMult (x + y) := by
  rintro ⟨m, rfl⟩ ⟨k, rfl⟩
  exact ⟨m + k, by push_cast; ring⟩

theorem CentMult.sub {x y : ℚ} : CentMult x → CentMult y → CentMult (x - y) := by
  rintro ⟨m, rfl⟩ ⟨k, rfl⟩
  exact ⟨m - k, by push_cast; ring⟩

theorem quantizeCent_intCast_div (m : ℤ) : quantizeCent ((m : ℚ) / 100) = (m : ℚ) / 100 := by
  unfold quantizeCent
  rw [show (100 : ℚ) * ((m : ℚ) / 100) = (m : ℚ) by ring, roundHalfUp_intCast]

theorem quantizeCent_centMult (x : ℚ) : CentMult (quantizeCent x) :=
  ⟨roundHalfUp (100 * x), rfl⟩

theorem quantizeCent_of_centMult {x : ℚ} (h : CentMult x) : quantizeCent x = x := by
  obtain ⟨m, rfl⟩ := h
  exact quantizeCent_intCast_div m

theorem quantizeCent_mono {x y : ℚ} (h : x ≤ y) : quantizeCent x ≤ quantizeCent y := by
  unfold quantizeCent
  have := roundHalfUp_mono (show 100 * x ≤ 100 * y by linarith)
  have : (roundHalfUp (100 * x) : ℚ) ≤ (roundHalfUp (100 * y) : ℚ) := by exact_mod_cast this
  linarith

theorem quantizeCent_le (x : ℚ) : quantizeCent x ≤ x + 1/200 := by
  unfold quantizeCent
  have := roundHalfUp_le (100 * x)
  linarith

theorem le_quantizeCent (x : ℚ) : x - 1/200 ≤ quantizeCent x := by
  unfold quantizeCent
  have := le_roundHalfUp (100 * x)
  linarith

/-! ### Forward computation: basic lemmas -/

theorem compute_breakdown_base (b : ℚ) : (compute_breakdown b).base = quantizeCent b := rfl

theorem compute_breakdown_total_eq (b : ℚ) :
    (compute_breakdown b).total =
      (compute_breakdown b).base + (compute_breakdown b).state_tax +
        (compute_breakdown b).city_tax + (compute_breakdown b).lodging_tax := rfl

theorem compute_breakdown_congr {b₁ b₂ : ℚ} (h : quantizeCent b₁ = quantizeCent b₂) :
    compute_breakdown b₁ = compute_breakdown b₂ := by
  unfold compute_breakdown
  rw [h]

theorem STATE_TAX_RATE_nonneg : (0 : ℚ) ≤ STATE_TAX_RATE := by
  unfold STATE_TAX_RATE; norm_num

theorem CITY_TAX_RATE_nonneg : (0 : ℚ) ≤ CITY_TAX_RATE := by
  unfold CITY_TAX_RATE; norm_num

theorem LODGING_TAX_RATE_nonneg : (0 : ℚ) ≤ LODGING_TAX_RATE := by
  unfold LODGING_TAX_RATE; norm_num

theorem compute_breakdown_state_mono {b₁ b₂ : ℚ} (h : b₁ ≤ b₂) :
    (compute_breakdown b₁).state_tax ≤ (compute_breakdown b₂).state_tax := by
  unfold compute_breakdown
  have hq := quantizeCent_mono h
  have harg : quantizeCent b₁ * STATE_TAX_RATE * 100 ≤ quantizeCent b₂ * STATE_TAX_RATE * 100 :=
    mul_le_mul_of_nonneg_right (mul_le_mul_of_nonneg_right hq STATE_TAX_RATE_nonneg) (by norm_num)
  have := roundAwayFromZero_mono harg
  have h2 : (roundAwayFromZero (quantizeCent b₁ * STATE_TAX_RATE * 100) : ℚ) ≤
      (roundAwayFromZero (quantizeCent b₂ * STATE_TAX_RATE * 100) : ℚ) := by exact_mod_cast this
  simpa using by linarith

theorem compute_breakdown_city_mono {b₁ b₂ : ℚ} (h : b₁ ≤ b₂) :
    (compute_breakdown b₁).city_tax ≤ (compute_breakdown b₂).city_tax := by
  unfold compute_breakdown
  have hq := quantizeCent_mono h
  exact quantizeCent_mono (mul_le_mul_of_nonneg_right hq CITY_TAX_RATE_nonneg)

theorem compute_breakdown_lodging_mono {b₁ b₂ : ℚ} (h : b₁ ≤ b₂) :
    (compute_breakdown b₁).lodging_tax ≤ (compute_breakdown b₂).lodging_tax := by
  unfold compute_breakdown
  have hq := quantizeCent_mono h
  exact quantizeCent_mono (mul_le_mul_of_nonneg_right hq LODGING_TAX_RATE_nonneg)

theorem compute_breakdown_total_mono {b₁ b₂ : ℚ} (h : b₁ ≤ b₂) :
    (compute_breakdown b₁).total ≤ (compute_breakdown b₂).total := by
  have hs := compute_breakdown_state_mono h
  have hc := compute_breakdown_city_mono h
  have hl := compute_breakdown_lodging_mono h
  have hq := quantizeCent_mono h
  rw [compute_breakdown_total_eq, compute_breakdown_total_eq]
  rw [compute_breakdown_base, compute_breakdown_base]
  linarith

/-! ### Nearest-cent characterization of the HALF_UP quantization -/

theorem quantizeCent_nonneg_eq {x : ℚ} (hx : 0 ≤ x) :
    quantizeCent x = (⌊100 * x + 1/2⌋ : ℚ) / 100 := by
  unfold quantizeCent
  rw [roundHalfUp_nonneg_eq (by linarith)]

theorem quantizeCent_nearest {x : ℚ} (hx : 0 ≤ x) (m : ℤ) :
    |quantizeCent x - x| ≤ |(m : ℚ) / 100 - x| := by
  rw [quantizeCent_nonneg_eq hx]
  set y : ℚ := 100 * x with hy
  set r : ℤ := ⌊y + 1/2⌋ with hr
  have h1 : (r : ℚ) ≤ y + 1/2 := Int.floor_le _
  have h2 : y - 1/2 < (r : ℚ) := by
    have := Int.sub_one_lt_floor (y + 1/2)
    rw [← hr] at this
    linarith
  have habs : |(r : ℚ) - y| ≤ 1/2 := abs_le.mpr ⟨by linarith, by linarith⟩
  have hx100 : x = y / 100 := by rw [hy]; ring
  rcases eq_or_ne m r with rfl | hne
  · exact le_refl _
  · have hge : (1 : ℚ) ≤ |(m : ℚ) - r| := by
      have : (1 : ℤ) ≤ |m - r| := Int.one_le_abs (by omega)
      calc (1 : ℚ) = ((1 : ℤ) : ℚ) := by norm_num
        _ ≤ (|m - r| : ℤ) := by exact_mod_cast this
        _ = |(m : ℚ) - r| := by push_cast; rfl
    have htri : |(m : ℚ) - r| - |(m : ℚ) - y| ≤ |(r : ℚ) - y| := by
      have := abs_sub_abs_le_abs_sub ((m : ℚ) - r) ((m : ℚ) - y)
      have he : ((m : ℚ) - r) - ((m : ℚ) - y) = y - r := by ring
      rw [he] at this
      rw [abs_sub_comm (r : ℚ) y]
      linarith
    have hmy : (1 : ℚ) / 2 ≤ |(m : ℚ) - y| := by linarith
    have goal' : |(r : ℚ) - y| ≤ |(m : ℚ) - y| := by linarith
    calc |(r : ℚ) / 100 - x| = |(r : ℚ) - y| / 100 := by
          rw [hx100, show (r : ℚ) / 100 - y / 100 = ((r : ℚ) - y) / 100 by ring, abs_div]
          norm_num
      _ ≤ |(m : ℚ) - y| / 100 := by linarith
      _ = |(m : ℚ) / 100 - x| := by
          rw [hx100]
          rw [show (m : ℚ) / 100 - y / 100 = ((m : ℚ) - y) / 100 by ring]
          rw [abs_div]
          norm_num

theorem quantizeCent_half_le {x : ℚ} (hx : 0 ≤ x)
    (h : |quantizeCent x - x| = 1/200) : x ≤ quantizeCent x := by
  by_contra hq
  push_neg at hq
  have hlt : quantizeCent x - x < 0 := by linarith
  have heq : quantizeCent x = x - 1/200 := by
    rw [abs_of_neg hlt] at h
    linarith
  have h100 : (roundHalfUp (100 * x) : ℚ) = 100 * x - 1/2 := by
    unfold quantizeCent at heq
    have : (roundHalfUp (100 * x) : ℚ) / 100 = x - 1/200 := heq
    linarith
  have hfl : roundHalfUp (100 * x) = ⌊100 * x + 1/2⌋ := roundHalfUp_nonneg_eq (by linarith)
  have harg : 100 * x + 1/2 = ((roundHalfUp (100 * x) + 1 : ℤ) : ℚ) := by push_cast; linarith
  have : roundHalfUp (100 * x) = roundHalfUp (100 * x) + 1 := by
    conv_lhs => rw [hfl]
    rw [harg, Int.floor_intCast]
  omega

/-! ### Structural lemmas for the reverse search -/

theorem quantizeCent_idem (x : ℚ) : quantizeCent (quantizeCent x) = quantizeCent x :=
  quantizeCent_of_centMult (quantizeCent_centMult x)

theorem candLt_irrefl (a : Cand) : ¬ candLt a a := by
  unfold candLt
  rintro (h | ⟨-, h⟩) <;> exact lt_irrefl _ h

theorem candLt_asymm {a b : Cand} (h : candLt a b) : ¬ candLt b a := by
  unfold candLt at *
  rintro (h' | ⟨h'₁, h'₂⟩) <;> rcases h with h | ⟨h₁, h₂⟩
  · omega
  · omega
  · omega
  · linarith

/-- The `foldl` inside `chooseBest` returns an element of the list (or the
initial accumulator). -/
theorem chooseBest_foldl_mem (cs : List Cand) (a : Cand) :
    cs.foldl (fun m x => if candLt x m then x else m) a ∈ a :: cs := by
  induction cs generalizing a with
  | nil => simp
  | cons x xs ih =>
    simp only [List.foldl_cons]
    by_cases h : candLt x a
    · rw [if_pos h]
      have := ih x
      simp only [List.mem_cons] at this ⊢
      tauto
    · rw [if_neg h]
      have := ih a
      simp only [List.mem_cons] at this ⊢
      tauto

theorem chooseBest_mem {l : List Cand} {c : Cand} (h : chooseBest l = some c) : c ∈ l := by
  cases l with
  | nil => simp [chooseBest] at h
  | cons a cs =>
    simp only [chooseBest, Option.some.injEq] at h
    have := chooseBest_foldl_mem cs a
    rw [h] at this
    exact this

/-- The `foldl` inside `chooseBest` returns the distinguished element `a`
whenever `a` beats every other list element in the sort order. -/
theorem chooseBest_foldl_eq {a : Cand} (cs : List Cand) (acc : Cand)
    (hacc : acc = a ∨ (candLt a acc ∧ a ∈ cs))
    (hall : ∀ x ∈ cs, x = a ∨ candLt a x) :
    cs.foldl (fun m x => if candLt x m then x else m) acc = a := by
  induction cs generalizing acc with
  | nil =>
    rcases hacc with rfl | ⟨-, h⟩
    · rfl
    · exact absurd h (List.not_mem_nil a)
  | cons x xs ih =>
    simp only [List.foldl_cons]
    rcases hacc with rfl | ⟨hlt, hmem⟩
    · rcases hall x (List.mem_cons_self x xs) with rfl | hx
      · rw [if_neg (candLt_irrefl x)]
        exact ih x (Or.inl rfl) (fun y hy => hall y (List.mem_cons_of_mem x hy))
      · rw [if_neg (candLt_asymm hx)]
        exact ih acc (Or.inl rfl) (fun y hy => hall y (List.mem_cons_of_mem x hy))
    · by_cases hxa : x = a
      · subst hxa
        rw [if_pos hlt]
        exact ih x (Or.inl rfl) (fun y hy => hall y (List.mem_cons_of_mem x hy))
      · have hx : candLt a x := (hall x (List.mem_cons_self x xs)).resolve_left hxa
        have hmem' : a ∈ xs := by
          rcases List.mem_cons.mp hmem with rfl | h
          · exact absurd rfl hxa
          · exact h
        by_cases hcase : candLt x acc
        · rw [if_pos hcase]
          exact ih x (Or.inr ⟨hx, hmem'⟩) (fun y hy => hall y (List.mem_cons_of_mem x hy))
        · rw [if_neg hcase]
          exact ih acc (Or.inr ⟨hlt, hmem'⟩) (fun y hy => hall y (List.mem_cons_of_mem x hy))

theorem chooseBest_eq_of {l : List Cand} {a : Cand} (h₁ : a ∈ l)
    (h₂ : ∀ x ∈ l, x = a ∨ candLt a x) : chooseBest l = some a := by
  cases l with
  | nil => exact absurd h₁ (List.not_mem_nil a)
  | cons c cs =>
    simp only [chooseBest, Option.some.injEq]
    have hrest : ∀ y ∈ cs, y = a ∨ candLt a y :=
      fun y hy => h₂ y (List.mem_cons_of_mem c hy)
    rcases List.mem_cons.mp h₁ with heq | hmem
    · exact chooseBest_foldl_eq cs c (Or.inl heq.symm) hrest
    · rcases h₂ c (List.mem_cons_self c cs) with heq | hc
      · exact chooseBest_foldl_eq cs c (Or.inl heq) hrest
      · exact chooseBest_foldl_eq cs c (Or.inr ⟨hc, hmem⟩) hrest

theorem mem_narrowBases {naive b : ℚ} :
    b ∈ narrowBases naive ↔ ∃ k : ℕ, k < 21 ∧ b = naive - (k : ℚ) / 100 := by
  constructor
  · intro hmem
    obtain ⟨k, hk, hkeq⟩ := List.mem_map.mp hmem
    exact ⟨k, List.mem_range.mp hk, hkeq.symm⟩
  · rintro ⟨k, hk, rfl⟩
    exact List.mem_map.mpr ⟨k, List.mem_range.mpr hk, rfl⟩

/-- What acceptance of a narrow candidate means, field by field. -/
theorem narrowCandidate_some {t b : ℚ} {c : Cand} (h : narrowCandidate t b = some c) :
    0 < b ∧ c.base = b ∧ c.total = t ∧
      c.city_tax = quantizeCent (b * CITY_TAX_RATE) ∧
      c.lodging_tax = quantizeCent (b * LODGING_TAX_RATE) ∧
      c.residual_state = quantizeCent (t - b - c.city_tax - c.lodging_tax) ∧
      0 ≤ c.residual_state ∧
      c.diff = c.residual_state -
        (roundAwayFromZero (b * STATE_TAX_RATE * 100) : ℚ) / 100 ∧
      |c.diff| ≤ 1 / 100 := by
  simp only [narrowCandidate] at h
  split_ifs at h with h1 h2 h3 ; cases h
  refine ⟨lt_of_not_le h1, rfl, rfl, rfl, rfl, rfl, not_lt.mp h2, rfl, h3⟩

/-- What a successful fallback step means. -/
theorem fallbackStep_some {t a : ℚ} {off : ℤ} {r : Breakdown}
    (h : fallbackStep t a off = some r) :
    0 < quantizeCent (a + (off : ℚ) / 100) ∧
      r = compute_breakdown (quantizeCent (a + (off : ℚ) / 100)) ∧
      |r.total - t| < 5 / 1000 := by
  simp only [fallbackStep] at h
  split_ifs at h with h1 h2 ; cases h
  exact ⟨lt_of_not_le h1, rfl, h2⟩

/-- The combined tax multiplier `1 + Σ rates`. -/
def combinedRate : ℚ := 1 + STATE_TAX_RATE + CITY_TAX_RATE + LODGING_TAX_RATE

/-- Unfolding `find_base_from_total` into its two phases. -/
theorem find_base_from_total_eq (t : ℚ) :
    find_base_from_total t =
      match chooseBest ((narrowBases (quantizeCent (quantizeCent t / combinedRate))).filterMap
          (narrowCandidate (quantizeCent t))) with
      | some c => some ⟨c.base, c.residual_state, c.city_tax, c.lodging_tax, c.total⟩
      | none => fallbackOffsets.findSome?
          (fallbackStep (quantizeCent t) (quantizeCent t / combinedRate)) := rfl

/-- Every result of `find_base_from_total` comes either from an accepted
narrow-search candidate chosen by the sort, or from the first matching
fallback offset. -/
theorem find_base_from_total_cases {t : ℚ} {r : Breakdown}
    (h : find_base_from_total t = some r) :
    (∃ c : Cand,
        c ∈ (narrowBases (quantizeCent (quantizeCent t / combinedRate))).filterMap
            (narrowCandidate (quantizeCent t)) ∧
        r = ⟨c.base, c.residual_state, c.city_tax, c.lodging_tax, c.total⟩) ∨
    (∃ off : ℤ, off ∈ fallbackOffsets ∧
        fallbackStep (quantizeCent t) (quantizeCent t / combinedRate) off = some r) := by
  rcases hc : chooseBest ((narrowBases (quantizeCent (quantizeCent t / combinedRate))).filterMap
      (narrowCandidate (quantizeCent t))) with _ | c
  · rw [find_base_from_total_eq, hc] at h
    obtain ⟨off, hmem, hstep⟩ := List.exists_of_findSome?_eq_some h
    exact Or.inr ⟨off, hmem, hstep⟩
  · rw [find_base_from_total_eq, hc] at h
    cases h
    exact Or.inl ⟨c, chooseBest_mem hc, rfl⟩

/-! ### Integer-cents view of the computation

For a base of `n` whole cents the three taxes and the total are integer
numbers of cents; these definitions give that view, and the bridge lemmas
below prove that they agree with the `ℚ`-valued program functions. -/

/-- State tax in cents of a base of `n` cents: `⌈n · 6.875%⌉`. -/
def stateCents (n : ℤ) : ℤ := ⌈(11 * n : ℚ) / 160⌉

/-- City tax in cents of a base of `n` cents: `n · 1.125%` rounded half-up. -/
def cityCents (n : ℤ) : ℤ := ⌊(9 * n : ℚ) / 800 + 1/2⌋

/-- Lodging tax in cents of a base of `n` cents: `n · 5%` rounded half-up. -/
def lodgingCents (n : ℤ) : ℤ := ⌊(n : ℚ) / 20 + 1/2⌋

/-- Grand total in cents of a base of `n` cents. -/
def totalCents (n : ℤ) : ℤ := n + stateCents n + cityCents n + lodgingCents n

/-- The residual state tax (in cents) the narrow search computes for target
total `T` and candidate base `c`. -/
def residCents (T c : ℤ) : ℤ := T - c - cityCents c - lodgingCents c

/-- The `diff` (in cents) between residual and predicted state tax. -/
def diffCents (T c : ℤ) : ℤ := residCents T c - stateCents c

/-- The combined one-cent step of all three rounded taxes between bases
`n - 1` and `n` cents. -/
def delta1 (n : ℤ) : ℤ :=
  (stateCents n - stateCents (n - 1)) + (cityCents n - cityCents (n - 1)) +
    (lodgingCents n - lodgingCents (n - 1))

/-- The naive base estimate (in cents) for a target total of `T` cents. -/
def naiveCents (T : ℤ) : ℤ := ⌊(100 * T : ℚ) / 113 + 1/2⌋

/-- The candidate record the narrow search builds for target `T` cents and
accepted candidate base `c` cents. -/
def candAt (T c : ℤ) : Cand :=
  ⟨(c : ℚ) / 100, (residCents T c : ℚ) / 100, (cityCents c : ℚ) / 100,
    (lodgingCents c : ℚ) / 100, (T : ℚ) / 100, (diffCents T c : ℚ) / 100⟩

theorem stateCents_mono {m n : ℤ} (h : m ≤ n) : stateCents m ≤ stateCents n := by
  apply Int.ceil_le_ceil
  have : (m : ℚ) ≤ (n : ℚ) := by exact_mod_cast h
  linarith

theorem cityCents_mono {m n : ℤ} (h : m ≤ n) : cityCents m ≤ cityCents n := by
  apply Int.floor_le_floor
  have : (m : ℚ) ≤ (n : ℚ) := by exact_mod_cast h
  linarith

theorem lodgingCents_mono {m n : ℤ} (h : m ≤ n) : lodgingCents m ≤ lodgingCents n := by
  apply Int.floor_le_floor
  have : (m : ℚ) ≤ (n : ℚ) := by exact_mod_cast h
  linarith

theorem stateCents_nonneg {n : ℤ} (hn : 0 ≤ n) : 0 ≤ stateCents n := by
  apply Int.ceil_nonneg
  have : (0 : ℚ) ≤ (n : ℚ) := by exact_mod_cast hn
  positivity

theorem cityCents_nonneg {n : ℤ} (hn : 0 ≤ n) : 0 ≤ cityCents n := by
  apply Int.floor_nonneg.mpr
  have : (0 : ℚ) ≤ (n : ℚ) := by exact_mod_cast hn
  positivity

theorem lodgingCents_nonneg {n : ℤ} (hn : 0 ≤ n) : 0 ≤ lodgingCents n := by
  apply Int.floor_nonneg.mpr
  have : (0 : ℚ) ≤ (n : ℚ) := by exact_mod_cast hn
  positivity

theorem stateCents_ge (n : ℤ) : (11 * n : ℚ) / 160 ≤ (stateCents n : ℚ) := Int.le_ceil _

theorem stateCents_lt (n : ℤ) : (stateCents n : ℚ) < (11 * n : ℚ) / 160 + 1 :=
  Int.ceil_lt_add_one _

theorem cityCents_le (n : ℤ) : (cityCents n : ℚ) ≤ (9 * n : ℚ) / 800 + 1/2 := Int.floor_le _

theorem cityCents_gt (n : ℤ) : (9 * n : ℚ) / 800 - 1/2 < (cityCents n : ℚ) := by
  have := Int.sub_one_lt_floor ((9 * n : ℚ) / 800 + 1/2)
  unfold cityCents
  linarith

theorem lodgingCents_le (n : ℤ) : (lodgingCents n : ℚ) ≤ (n : ℚ) / 20 + 1/2 := Int.floor_le _

theorem lodgingCents_gt (n : ℤ) : (n : ℚ) / 20 - 1/2 < (lodgingCents n : ℚ) := by
  have := Int.sub_one_lt_floor ((n : ℚ) / 20 + 1/2)
  unfold lodgingCents
  linarith

theorem totalCents_growth {m n : ℤ} (h : m ≤ n) : totalCents m + (n - m) ≤ totalCents n := by
  unfold totalCents
  have h1 := stateCents_mono h
  have h2 := cityCents_mono h
  have h3 := lodgingCents_mono h
  omega

theorem self_le_totalCents {n : ℤ} (hn : 0 ≤ n) : n ≤ totalCents n := by
  unfold totalCents
  have h1 := stateCents_nonneg hn
  have h2 := cityCents_nonneg hn
  have h3 := lodgingCents_nonneg hn
  omega

theorem residCents_total (n c : ℤ) :
    residCents (totalCents n) c =
      (n - c) + stateCents n + (cityCents n - cityCents c) +
        (lodgingCents n - lodgingCents c) := by
  unfold residCents totalCents
  ring

theorem diffCents_total (n c : ℤ) :
    diffCents (totalCents n) c =
      (n - c) + (stateCents n - stateCents c) + (cityCents n - cityCents c) +
        (lodgingCents n - lodgingCents c) := by
  unfold diffCents
  rw [residCents_total]
  ring

theorem diffCents_self (n : ℤ) : diffCents (totalCents n) n = 0 := by
  rw [diffCents_total]
  ring

theorem residCents_self (n : ℤ) : residCents (totalCents n) n = stateCents n := by
  rw [residCents_total]
  ring

theorem diffCents_pred (n : ℤ) : diffCents (totalCents n) (n - 1) = 1 + delta1 n := by
  rw [diffCents_total]
  unfold delta1
  ring

theorem delta1_nonneg (n : ℤ) : 0 ≤ delta1 n := by
  unfold delta1
  have h1 := stateCents_mono (show n - 1 ≤ n by omega)
  have h2 := cityCents_mono (show n - 1 ≤ n by omega)
  have h3 := lodgingCents_mono (show n - 1 ≤ n by omega)
  omega

theorem diffCents_ge {n c : ℤ} (h : c ≤ n) : n - c ≤ diffCents (totalCents n) c := by
  rw [diffCents_total]
  have h1 := stateCents_mono h
  have h2 := cityCents_mono h
  have h3 := lodgingCents_mono h
  omega

theorem diffCents_le {n c : ℤ} (h : n ≤ c) : diffCents (totalCents n) c ≤ n - c := by
  rw [diffCents_total]
  have h1 := stateCents_mono h
  have h2 := cityCents_mono h
  have h3 := lodgingCents_mono h
  omega

theorem residCents_nonneg_of_le {n c : ℤ} (hn : 0 ≤ n) (h : c ≤ n) :
    0 ≤ residCents (totalCents n) c := by
  rw [residCents_total]
  have h1 := stateCents_nonneg hn
  have h2 := cityCents_mono h
  have h3 := lodgingCents_mono h
  omega

/-! ### Bridge lemmas between the `ℚ` program and the cents view -/

theorem combinedRate_eq : combinedRate = 113 / 100 := by
  unfold combinedRate STATE_TAX_RATE CITY_TAX_RATE LODGING_TAX_RATE
  norm_num

theorem predictedState_cents (c : ℤ) (hc : 0 ≤ c) :
    (roundAwayFromZero ((c : ℚ) / 100 * STATE_TAX_RATE * 100) : ℚ) / 100 =
      (stateCents c : ℚ) / 100 := by
  have hcq : (0 : ℚ) ≤ (c : ℚ) := by exact_mod_cast hc
  have harg : (c : ℚ) / 100 * STATE_TAX_RATE * 100 = (11 * c : ℚ) / 160 := by
    unfold STATE_TAX_RATE
    ring
  rw [harg, roundAwayFromZero_of_nonneg (by positivity)]
  rfl

theorem quantizeCent_city_cents (c : ℤ) (hc : 0 ≤ c) :
    quantizeCent ((c : ℚ) / 100 * CITY_TAX_RATE) = (cityCents c : ℚ) / 100 := by
  have hcq : (0 : ℚ) ≤ (c : ℚ) := by exact_mod_cast hc
  have harg : 100 * ((c : ℚ) / 100 * CITY_TAX_RATE) = (9 * c : ℚ) / 800 := by
    unfold CITY_TAX_RATE
    ring
  unfold quantizeCent
  rw [harg, roundHalfUp_nonneg_eq (by positivity)]
  rfl

theorem quantizeCent_lodging_cents (c : ℤ) (hc : 0 ≤ c) :
    quantizeCent ((c : ℚ) / 100 * LODGING_TAX_RATE) = (lodgingCents c : ℚ) / 100 := by
  have hcq : (0 : ℚ) ≤ (c : ℚ) := by exact_mod_cast hc
  have harg : 100 * ((c : ℚ) / 100 * LODGING_TAX_RATE) = (c : ℚ) / 20 := by
    unfold LODGING_TAX_RATE
    ring
  unfold quantizeCent
  rw [harg, roundHalfUp_nonneg_eq (by positivity)]
  rfl

theorem compute_breakdown_cents (n : ℤ) (hn : 0 ≤ n) :
    compute_breakdown ((n : ℚ) / 100) =
      ⟨(n : ℚ) / 100, (stateCents n : ℚ) / 100, (cityCents n : ℚ) / 100,
        (lodgingCents n : ℚ) / 100, (totalCents n : ℚ) / 100⟩ := by
  simp only [compute_breakdown]
  rw [quantizeCent_intCast_div, predictedState_cents n hn, quantizeCent_city_cents n hn,
    quantizeCent_lodging_cents n hn]
  have hsum : (n : ℚ) / 100 + (stateCents n : ℚ) / 100 + (cityCents n : ℚ) / 100 +
      (lodgingCents n : ℚ) / 100 = (totalCents n : ℚ) / 100 := by
    unfold totalCents
    push_cast
    ring
  rw [hsum]

/-- Away from exact half-way ties, HALF_UP rounding is plain floor of
`y + 1/2`, for negative inputs as well. -/
theorem roundHalfUp_eq_floor {y : ℚ} (h : ∀ m : ℤ, y + 1/2 ≠ (m : ℚ)) :
    roundHalfUp y = ⌊y + 1/2⌋ := by
  unfold roundHalfUp
  split
  · rfl
  · have h1 : (⌊y + 1/2⌋ : ℚ) ≠ y + 1/2 := fun he => h ⌊y + 1/2⌋ he.symm
    have h2 : (⌊y + 1/2⌋ : ℚ) < y + 1/2 := lt_of_le_of_ne (Int.floor_le _) h1
    have h3 : ⌈y + 1/2⌉ ≤ ⌊y + 1/2⌋ + 1 := by
      apply Int.ceil_le.mpr
      push_cast
      have := Int.lt_floor_add_one (y + 1/2)
      linarith
    have h4 : ⌊y + 1/2⌋ + 1 ≤ ⌈y + 1/2⌉ := by
      by_contra hcon
      push_neg at hcon
      have hle : ⌈y + 1/2⌉ ≤ ⌊y + 1/2⌋ := by omega
      have hcast : ((⌈y + 1/2⌉ : ℤ) : ℚ) ≤ ((⌊y + 1/2⌋ : ℤ) : ℚ) := by exact_mod_cast hle
      have := Int.le_ceil (y + 1/2)
      linarith
    have hsplit : -y + 1/2 = -(y + 1/2) + ((1 : ℤ) : ℚ) := by push_cast; ring
    rw [hsplit, Int.floor_add_int, Int.floor_neg]
    omega

/-- The cent candidate the fallback loop derives from offset `off` for a
target of `T` cents: the quantization never hits a tie, so it is exactly
`naiveCents T + off`. -/
theorem fallback_quantize (T off : ℤ) :
    quantizeCent ((T : ℚ) / 100 / combinedRate + (off : ℚ) / 100) =
      ((naiveCents T + off : ℤ) : ℚ) / 100 := by
  rw [combinedRate_eq]
  unfold quantizeCent
  have harg : 100 * ((T : ℚ) / 100 / (113 / 100) + (off : ℚ) / 100) =
      (100 * T : ℚ) / 113 + (off : ℚ) := by ring
  rw [harg]
  have hnotie : ∀ m : ℤ, (100 * T : ℚ) / 113 + (off : ℚ) + 1/2 ≠ (m : ℚ) := by
    intro m heq
    have hq : (200 * T + 226 * off + 113 : ℚ) = 226 * (m : ℚ) := by
      field_simp at heq
      linarith
    have hz : 200 * T + 226 * off + 113 = 226 * m := by exact_mod_cast hq
    omega
  rw [roundHalfUp_eq_floor hnotie]
  have hsplit : (100 * T : ℚ) / 113 + (off : ℚ) + 1/2 =
      ((100 * T : ℚ) / 113 + 1/2) + ((off : ℤ) : ℚ) := by ring
  rw [hsplit, Int.floor_add_int]
  unfold naiveCents
  push_cast
  ring

/-- The naive base of the narrow search, in cents. -/
theorem naive_bridge (T : ℤ) (hT : 0 ≤ T) :
    quantizeCent ((T : ℚ) / 100 / combinedRate) = (naiveCents T : ℚ) / 100 := by
  have hq : (0 : ℚ) ≤ (T : ℚ) := by exact_mod_cast hT
  rw [combinedRate_eq]
  unfold quantizeCent
  have harg : 100 * ((T : ℚ) / 100 / (113 / 100)) = (100 * T : ℚ) / 113 := by ring
  rw [harg, roundHalfUp_nonneg_eq (by positivity)]
  rfl

theorem totalCents_lb (n : ℤ) : (113 * n : ℚ) / 100 - 1 < (totalCents n : ℚ) := by
  have hs := stateCents_ge n
  have hc := cityCents_gt n
  have hl := lodgingCents_gt n
  unfold totalCents
  push_cast
  linarith

theorem totalCents_ub (n : ℤ) : (totalCents n : ℚ) < (113 * n : ℚ) / 100 + 2 := by
  have hs := stateCents_lt n
  have hc := cityCents_le n
  have hl := lodgingCents_le n
  unfold totalCents
  push_cast
  linarith

theorem naiveCents_lb (n : ℤ) : n - 1 ≤ naiveCents (totalCents n) := by
  unfold naiveCents
  rw [Int.le_floor]
  have h := totalCents_lb n
  push_cast
  linarith

theorem naiveCents_ub (n : ℤ) : naiveCents (totalCents n) ≤ n + 2 := by
  unfold naiveCents
  have h3 : ⌊(100 * (totalCents n : ℚ)) / 113 + 1/2⌋ < n + 3 := by
    rw [Int.floor_lt]
    have h := totalCents_ub n
    push_cast
    linarith
  omega

theorem narrowCandidate_nonpos {t b : ℚ} (h : b ≤ 0) : narrowCandidate t b = none := by
  simp only [narrowCandidate]
  rw [if_pos h]

/-- The narrow-search loop body, for an integer target `T` cents and an
integer candidate base of `c ≥ 1` cents, in the cents view. -/
theorem narrowCandidate_cents (T c : ℤ) (hc : 1 ≤ c) :
    narrowCandidate ((T : ℚ) / 100) ((c : ℚ) / 100) =
      if residCents T c < 0 then none
      else if |diffCents T c| ≤ 1 then some (candAt T c)
      else none := by
  have hc0 : (0 : ℤ) ≤ c := by omega
  have hcq : (1 : ℚ) ≤ (c : ℚ) := by exact_mod_cast hc
  have hguard : ¬ ((c : ℚ) / 100 ≤ 0) := by
    push_neg
    positivity
  simp only [narrowCandidate]
  rw [if_neg hguard, quantizeCent_city_cents c hc0, quantizeCent_lodging_cents c hc0,
    predictedState_cents c hc0]
  have hres : (T : ℚ) / 100 - (c : ℚ) / 100 - (cityCents c : ℚ) / 100 -
      (lodgingCents c : ℚ) / 100 = ((residCents T c : ℤ) : ℚ) / 100 := by
    unfold residCents
    push_cast
    ring
  rw [hres, quantizeCent_intCast_div]
  have hdiffq : ((residCents T c : ℤ) : ℚ) / 100 - (stateCents c : ℚ) / 100 =
      ((diffCents T c : ℤ) : ℚ) / 100 := by
    unfold diffCents
    push_cast
    ring
  rw [hdiffq]
  by_cases hR : residCents T c < 0
  · have hRq : ((residCents T c : ℤ) : ℚ) / 100 < 0 := by
      have : ((residCents T c : ℤ) : ℚ) < 0 := by exact_mod_cast hR
      linarith
    rw [if_pos hRq, if_pos hR]
  · have hRq : ¬ ((residCents T c : ℤ) : ℚ) / 100 < 0 := by
      push_neg at hR ⊢
      have : (0 : ℚ) ≤ ((residCents T c : ℤ) : ℚ) := by exact_mod_cast hR
      linarith
    rw [if_neg hRq, if_neg hR]
    have hcondq : |((diffCents T c : ℤ) : ℚ) / 100| ≤ 1 / 100 ↔ |diffCents T c| ≤ 1 := by
      rw [abs_div, abs_of_pos (show (0:ℚ) < 100 by norm_num)]
      constructor
      · intro h
        have habs : |((diffCents T c : ℤ) : ℚ)| ≤ 1 := by linarith
        exact_mod_cast habs
      · intro h
        have habs : |((diffCents T c : ℤ) : ℚ)| ≤ 1 := by exact_mod_cast h
        linarith
    by_cases hd : |diffCents T c| ≤ 1
    · rw [if_pos (hcondq.mpr hd), if_pos hd]
      rfl
    · rw [if_neg (fun hq => hd (hcondq.mp hq)), if_neg hd]

/-! ### Acceptance analysis of the narrow search on exact-cent targets -/

theorem candRank_candAt (T c : ℤ) :
    candRank (candAt T c) = if 0 < diffCents T c then -1 else 0 := by
  unfold candRank candAt
  by_cases h : 0 < diffCents T c
  · rw [if_pos h, if_pos]
    have : (0 : ℚ) < ((diffCents T c : ℤ) : ℚ) := by exact_mod_cast h
    show (0 : ℚ) < _ / 100
    positivity
  · rw [if_neg h, if_neg]
    push_neg at h ⊢
    have : ((diffCents T c : ℤ) : ℚ) ≤ 0 := by exact_mod_cast h
    show _ / 100 ≤ (0 : ℚ)
    linarith

/-- Any candidate the narrow search accepts, for a target that is the exact
total of a base of `n` cents, is the record at `c` cents for some
`c ∈ {n-1, n, n+1}`. -/
theorem narrow_accept_int {n c : ℤ} {x : Cand}
    (h : narrowCandidate ((totalCents n : ℚ) / 100) ((c : ℚ) / 100) = some x) :
    x = candAt (totalCents n) c ∧ 1 ≤ c ∧ n - 1 ≤ c ∧ c ≤ n + 1 := by
  have hc : 1 ≤ c := by
    by_contra hcon
    push_neg at hcon
    have hle : c ≤ 0 := by omega
    have hq : (c : ℚ) / 100 ≤ 0 := by
      have : (c : ℚ) ≤ 0 := by exact_mod_cast hle
      linarith
    rw [narrowCandidate_nonpos hq] at h
    cases h
  rw [narrowCandidate_cents _ _ hc] at h
  split_ifs at h with h1 h2 ; cases h
  have habs := abs_le.mp h2
  have hlow : n - 1 ≤ c := by
    by_contra hcon
    push_neg at hcon
    have := diffCents_ge (show c ≤ n by omega)
    omega
  have hhigh : c ≤ n + 1 := by
    by_contra hcon
    push_neg at hcon
    have := diffCents_le (show n ≤ c by omega)
    omega
  exact ⟨rfl, hc, hlow, hhigh⟩

theorem narrow_accept_at_self (n : ℤ) (hn : 1 ≤ n) :
    narrowCandidate ((totalCents n : ℚ) / 100) ((n : ℚ) / 100) =
      some (candAt (totalCents n) n) := by
  have h1 : ¬ residCents (totalCents n) n < 0 := by
    rw [residCents_self]
    exact not_lt.mpr (stateCents_nonneg (by omega))
  have h2 : |diffCents (totalCents n) n| ≤ 1 := by
    rw [diffCents_self]
    norm_num
  rw [narrowCandidate_cents _ _ hn, if_neg h1, if_pos h2]

theorem narrow_accept_at_pred (n : ℤ) (hn : 2 ≤ n) (hd : delta1 n = 0) :
    narrowCandidate ((totalCents n : ℚ) / 100) (((n - 1 : ℤ) : ℚ) / 100) =
      some (candAt (totalCents n) (n - 1)) := by
  have h1 : ¬ residCents (totalCents n) (n - 1) < 0 :=
    not_lt.mpr (residCents_nonneg_of_le (by omega) (by omega))
  have h2 : |diffCents (totalCents n) (n - 1)| ≤ 1 := by
    rw [diffCents_pred, hd]
    norm_num
  rw [narrowCandidate_cents _ _ (by omega), if_neg h1, if_pos h2]

theorem narrow_reject_at_pred (n : ℤ) (hn : 2 ≤ n) (hd : 1 ≤ delta1 n) :
    narrowCandidate ((totalCents n : ℚ) / 100) (((n - 1 : ℤ) : ℚ) / 100) = none := by
  have h1 : ¬ residCents (totalCents n) (n - 1) < 0 :=
    not_lt.mpr (residCents_nonneg_of_le (by omega) (by omega))
  have h2 : ¬ |diffCents (totalCents n) (n - 1)| ≤ 1 := by
    rw [diffCents_pred, abs_of_nonneg (by omega)]
    omega
  rw [narrowCandidate_cents _ _ (by omega), if_neg h1, if_neg h2]

theorem narrow_reject_low {n c : ℤ} (hc1 : 1 ≤ c) (hc : c ≤ n - 2) :
    narrowCandidate ((totalCents n : ℚ) / 100) ((c : ℚ) / 100) = none := by
  have h1 : ¬ residCents (totalCents n) c < 0 :=
    not_lt.mpr (residCents_nonneg_of_le (by omega) (by omega))
  have h2 : ¬ |diffCents (totalCents n) c| ≤ 1 := by
    have := diffCents_ge (show c ≤ n by omega)
    rw [abs_of_nonneg (by omega)]
    omega
  rw [narrowCandidate_cents _ _ hc1, if_neg h1, if_neg h2]

theorem narrowBases_int (N : ℤ) (k : ℕ) :
    (N : ℚ) / 100 - (k : ℚ) / 100 = ((N - k : ℤ) : ℚ) / 100 := by
  push_cast
  ring

/-- Membership in the filtered narrow candidate list, in the cents view. -/
theorem mem_narrow_list {T N : ℤ} {x : Cand} :
    (x ∈ (narrowBases ((N : ℚ) / 100)).filterMap (narrowCandidate ((T : ℚ) / 100))) ↔
      ∃ k : ℕ, k < 21 ∧
        narrowCandidate ((T : ℚ) / 100) (((N - k : ℤ) : ℚ) / 100) = some x := by
  rw [List.mem_filterMap]
  constructor
  · rintro ⟨b, hb, hx⟩
    obtain ⟨k, hk, rfl⟩ := mem_narrowBases.mp hb
    rw [narrowBases_int] at hx
    exact ⟨k, hk, hx⟩
  · rintro ⟨k, hk, hx⟩
    refine ⟨(N : ℚ) / 100 - (k : ℚ) / 100, mem_narrowBases.mpr ⟨k, hk, rfl⟩, ?_⟩
    rw [narrowBases_int]
    exact hx

/-- When the one-cent-lower candidate keeps all three rounded taxes unchanged
(`delta1 n = 0`), the narrow search prefers it: it is the only accepted
candidate with positive diff, and the sort ranks positive diff first. -/
theorem chooseBest_case_pred (n N : ℤ) (hn : 2 ≤ n) (hd : delta1 n = 0)
    (hNl : n - 1 ≤ N) (hNu : N ≤ n + 2) :
    chooseBest ((narrowBases ((N : ℚ) / 100)).filterMap
        (narrowCandidate ((totalCents n : ℚ) / 100))) =
      some (candAt (totalCents n) (n - 1)) := by
  apply chooseBest_eq_of
  · apply mem_narrow_list.mpr
    refine ⟨(N - (n - 1)).toNat, by omega, ?_⟩
    have hcast : N - ((N - (n - 1)).toNat : ℤ) = n - 1 := by omega
    rw [hcast]
    exact narrow_accept_at_pred n hn hd
  · intro x hx
    obtain ⟨k, hk, hsome⟩ := mem_narrow_list.mp hx
    obtain ⟨hxeq, hc1, hcl, hcu⟩ := narrow_accept_int hsome
    subst hxeq
    rcases show N - (k : ℤ) = n - 1 ∨ N - (k : ℤ) = n ∨ N - (k : ℤ) = n + 1 by omega
      with hcv | hcv | hcv
    · left
      rw [hcv]
    · refine Or.inr (Or.inl ?_)
      rw [candRank_candAt, candRank_candAt, hcv, diffCents_self, diffCents_pred, hd]
      norm_num
    · refine Or.inr (Or.inl ?_)
      have hdle := diffCents_le (show n ≤ N - (k : ℤ) by omega)
      rw [candRank_candAt, candRank_candAt, diffCents_pred, hd]
      rw [if_pos (by norm_num), if_neg (by omega)]
      norm_num

/-- When the one-cent-lower candidate is rejected (some rounded tax moves, or
the base would be zero), the narrow search settles on the true base itself. -/
theorem chooseBest_case_self (n N : ℤ) (hn : 1 ≤ n) (hNn : n ≤ N) (hNu : N ≤ n + 2)
    (hside : n = 1 ∨ 1 ≤ delta1 n) :
    chooseBest ((narrowBases ((N : ℚ) / 100)).filterMap
        (narrowCandidate ((totalCents n : ℚ) / 100))) =
      some (candAt (totalCents n) n) := by
  apply chooseBest_eq_of
  · apply mem_narrow_list.mpr
    refine ⟨(N - n).toNat, by omega, ?_⟩
    have hcast : N - ((N - n).toNat : ℤ) = n := by omega
    rw [hcast]
    exact narrow_accept_at_self n hn
  · intro x hx
    obtain ⟨k, hk, hsome⟩ := mem_narrow_list.mp hx
    obtain ⟨hxeq, hc1, hcl, hcu⟩ := narrow_accept_int hsome
    subst hxeq
    rcases show N - (k : ℤ) = n - 1 ∨ N - (k : ℤ) = n ∨ N - (k : ℤ) = n + 1 by omega
      with hcv | hcv | hcv
    · exfalso
      have hn2 : 2 ≤ n := by omega
      rcases hside with h1 | hδ
      · omega
      · rw [hcv] at hsome
        rw [narrow_reject_at_pred n hn2 hδ] at hsome
        cases hsome
    · left
      rw [hcv]
    · refine Or.inr (Or.inr ⟨?_, ?_⟩)
      · have hdle := diffCents_le (show n ≤ N - (k : ℤ) by omega)
        rw [candRank_candAt, candRank_candAt, diffCents_self]
        rw [if_neg (by omega), if_neg (by omega)]
      · show ((n : ℤ) : ℚ) / 100 < ((N - (k : ℤ) : ℤ) : ℚ) / 100
        have : ((n : ℤ) : ℚ) < ((N - (k : ℤ) : ℤ) : ℚ) := by
          exact_mod_cast (by omega : n < N - (k : ℤ))
        linarith

/-- When the naive estimate lands at `n - 1` cents and that candidate is
rejected, the narrow search accepts nothing at all. -/
theorem narrow_empty_case (n N : ℤ) (hn : 1 ≤ n) (hNeq : N = n - 1)
    (hside : n = 1 ∨ 1 ≤ delta1 n) :
    (narrowBases ((N : ℚ) / 100)).filterMap
      (narrowCandidate ((totalCents n : ℚ) / 100)) = [] := by
  rw [List.filterMap_eq_nil_iff]
  intro b hb
  obtain ⟨k, hk, rfl⟩ := mem_narrowBases.mp hb
  rw [narrowBases_int]
  rcases le_or_lt (N - (k : ℤ)) 0 with hc | hc
  · apply narrowCandidate_nonpos
    have : ((N - (k : ℤ) : ℤ) : ℚ) ≤ 0 := by exact_mod_cast hc
    linarith
  · have hc1 : 1 ≤ N - (k : ℤ) := hc
    rcases show N - (k : ℤ) = n - 1 ∨ N - (k : ℤ) ≤ n - 2 by omega with hcv | hcv
    · rw [hcv]
      have hn2 : 2 ≤ n := by omega
      rcases hside with h1 | hδ
      · omega
      · exact narrow_reject_at_pred n hn2 hδ
    · exact narrow_reject_low hc1 hcv

/-! ### The exhaustive fallback scan on exact-cent targets -/

/-- A fallback offset that lands at or below `n - 1` cents cannot match: the
total is strictly increasing on whole-cent bases, so the recomputed total
falls short of the target by at least one cent. -/
theorem fallbackStep_none_low (n : ℤ) {off : ℤ}
    (hoff : naiveCents (totalCents n) + off ≤ n - 1) :
    fallbackStep ((totalCents n : ℚ) / 100)
      ((totalCents n : ℚ) / 100 / combinedRate) off = none := by
  simp only [fallbackStep]
  rw [fallback_quantize]
  set c : ℤ := naiveCents (totalCents n) + off with hcdef
  rcases le_or_lt c 0 with hc | hc
  · rw [if_pos]
    have : ((c : ℤ) : ℚ) ≤ 0 := by exact_mod_cast hc
    linarith
  · have hc1 : 1 ≤ c := hc
    rw [if_neg (by
      push_neg
      have : (0 : ℚ) < ((c : ℤ) : ℚ) := by exact_mod_cast hc
      positivity)]
    rw [compute_breakdown_cents c (by omega)]
    have hgrow := totalCents_growth (show c ≤ n by omega)
    have hgap : (totalCents n : ℚ) - (totalCents c : ℚ) ≥ 1 := by
      have : totalCents c + 1 ≤ totalCents n := by omega
      have hcast : ((totalCents c + 1 : ℤ) : ℚ) ≤ ((totalCents n : ℤ) : ℚ) := by
        exact_mod_cast this
      push_cast at hcast
      linarith
    rw [if_neg]
    push_neg
    rw [abs_sub_comm, abs_of_nonneg (by linarith)]
    linarith

/-- The fallback offset `+1`, when the naive estimate landed at `n - 1`
cents, reproduces the target exactly. -/
theorem fallbackStep_hit (n : ℤ) (hn : 1 ≤ n)
    (hNeq : naiveCents (totalCents n) = n - 1) :
    fallbackStep ((totalCents n : ℚ) / 100)
      ((totalCents n : ℚ) / 100 / combinedRate) 1 =
      some (compute_breakdown ((n : ℚ) / 100)) := by
  simp only [fallbackStep]
  rw [fallback_quantize, hNeq]
  rw [show ((n - 1 + 1 : ℤ) : ℚ) / 100 = ((n : ℤ) : ℚ) / 100 by norm_num]
  rw [if_neg (by
    push_neg
    have : (0 : ℚ) < ((n : ℤ) : ℚ) := by exact_mod_cast hn
    positivity)]
  rw [if_pos]
  have htot : (compute_breakdown ((n : ℚ) / 100)).total = (totalCents n : ℚ) / 100 := by
    rw [compute_breakdown_cents n (by omega)]
  rw [htot]
  norm_num

/-- When the naive estimate lands at `n - 1` cents, the fallback scan hits
the true base at offset `+1` after rejecting every earlier offset. -/
theorem fallback_case (n : ℤ) (hn : 1 ≤ n)
    (hNeq : naiveCents (totalCents n) = n - 1) :
    fallbackOffsets.findSome? (fallbackStep ((totalCents n : ℚ) / 100)
      ((totalCents n : ℚ) / 100 / combinedRate)) =
      some (compute_breakdown ((n : ℚ) / 100)) := by
  apply List.findSome?_eq_some_iff.mpr
  refine ⟨(List.range' 0 301).map (fun i : ℕ => (i : ℤ) - 300), 1,
    (List.range' 302 299).map (fun i : ℕ => (i : ℤ) - 300), ?_, ?_, ?_⟩
  · unfold fallbackOffsets
    rw [List.range_eq_range', show (601 : ℕ) = 301 + 300 by norm_num,
      ← List.range'_append_1 0 301 300]
    rw [show List.range' (0 + 301) 300 = (301 : ℕ) :: List.range' 302 299 by
      rw [show (0 + 301 : ℕ) = 301 by norm_num, show (300 : ℕ) = 299 + 1 by norm_num,
        List.range'_succ]]
    rw [List.map_append, List.map_cons]
    norm_num
  · exact fallbackStep_hit n hn hNeq
  · intro off hoff
    obtain ⟨i, hi, rfl⟩ := List.mem_map.mp hoff
    obtain ⟨j, hj, hij⟩ := List.mem_range'.mp hi
    apply fallbackStep_none_low n
    omega

/-- Round-trip: for every positive exact-cent base of `n` cents, the reverse
solver applied to the exact forward total returns a breakdown whose base is
within one cent of `n` cents and whose total is exactly the original total. -/
theorem solve_roundtrip_int (n : ℤ) (hn : 1 ≤ n) :
    ∃ r : Breakdown,
      find_base_from_total ((totalCents n : ℚ) / 100) = some r ∧
        |r.base - (n : ℚ) / 100| ≤ 1 / 100 ∧ r.total = (totalCents n : ℚ) / 100 := by
  have hT0 : (0 : ℤ) ≤ totalCents n := le_trans (by omega) (self_le_totalCents (by omega))
  have hNl := naiveCents_lb n
  have hNu := naiveCents_ub n
  have hq : quantizeCent ((totalCents n : ℚ) / 100) = (totalCents n : ℚ) / 100 :=
    quantizeCent_intCast_div _
  have hnaive : quantizeCent ((totalCents n : ℚ) / 100 / combinedRate) =
      (naiveCents (totalCents n) : ℚ) / 100 := naive_bridge _ hT0
  rw [find_base_from_total_eq, hq, hnaive]
  by_cases hcase : 2 ≤ n ∧ delta1 n = 0
  · rw [chooseBest_case_pred n _ hcase.1 hcase.2 hNl hNu]
    refine ⟨_, rfl, ?_, rfl⟩
    show |((n - 1 : ℤ) : ℚ) / 100 - (n : ℚ) / 100| ≤ 1 / 100
    have hcast : ((n - 1 : ℤ) : ℚ) = (n : ℚ) - 1 := by push_cast; ring
    rw [hcast, show ((n : ℚ) - 1) / 100 - (n : ℚ) / 100 = -(1 / 100) by ring, abs_neg,
      abs_of_nonneg (by norm_num : (0 : ℚ) ≤ 1 / 100)]
  · push_neg at hcase
    have hside : n = 1 ∨ 1 ≤ delta1 n := by
      have hδ := delta1_nonneg n
      by_cases h2 : 2 ≤ n
      · have := hcase h2
        right
        omega
      · left
        omega
    by_cases hNn : n ≤ naiveCents (totalCents n)
    · rw [chooseBest_case_self n _ hn hNn hNu hside]
      refine ⟨_, rfl, ?_, rfl⟩
      show |((n : ℤ) : ℚ) / 100 - (n : ℚ) / 100| ≤ 1 / 100
      rw [show ((n : ℤ) : ℚ) / 100 - (n : ℚ) / 100 = 0 by ring]
      norm_num
    · have hNeq : naiveCents (totalCents n) = n - 1 := by omega
      rw [narrow_empty_case n _ hn hNeq hside,
        show chooseBest [] = none from rfl, fallback_case n hn hNeq]
      refine ⟨_, rfl, ?_, ?_⟩
      · show |(compute_breakdown ((n : ℚ) / 100)).base - (n : ℚ) / 100| ≤ 1 / 100
        rw [compute_breakdown_cents n (by omega)]
        show |((n : ℤ) : ℚ) / 100 - (n : ℚ) / 100| ≤ 1 / 100
        rw [show ((n : ℤ) : ℚ) / 100 - (n : ℚ) / 100 = 0 by ring]
        norm_num
      · show (compute_breakdown ((n : ℚ) / 100)).total = (totalCents n : ℚ) / 100
        rw [compute_breakdown_cents n (by omega)]

/-! ### Results returned by the reverse solver: sum identity and positivity -/

/-- A candidate accepted by the narrow search has an exactly additive total
(the residual state tax is computed as the exact difference, and the
quantization of a whole-cent amount is the identity), and a positive base. -/
theorem narrow_result_sum {t : ℚ} {c : Cand}
    (hmem : c ∈ (narrowBases (quantizeCent (quantizeCent t / combinedRate))).filterMap
        (narrowCandidate (quantizeCent t))) :
    c.total = c.base + c.residual_state + c.city_tax + c.lodging_tax ∧ 0 < c.base := by
  obtain ⟨b, hb, hsome⟩ := List.mem_filterMap.mp hmem
  obtain ⟨k, hk, rfl⟩ := mem_narrowBases.mp hb
  obtain ⟨hpos, hbase, htot, hcity, hlodg, hres, hres0, hdiff, habs⟩ :=
    narrowCandidate_some hsome
  constructor
  · have hT : CentMult (quantizeCent t) := quantizeCent_centMult t
    have hkq : CentMult ((k : ℚ) / 100) := ⟨(k : ℤ), by push_cast; ring⟩
    have hbm : CentMult (quantizeCent (quantizeCent t / combinedRate) - (k : ℚ) / 100) :=
      CentMult.sub (quantizeCent_centMult _) hkq
    have hcm : CentMult c.city_tax := hcity ▸ quantizeCent_centMult _
    have hlm : CentMult c.lodging_tax := hlodg ▸ quantizeCent_centMult _
    have harg : CentMult (quantizeCent t -
        (quantizeCent (quantizeCent t / combinedRate) - (k : ℚ) / 100) -
        c.city_tax - c.lodging_tax) :=
      CentMult.sub (CentMult.sub (CentMult.sub hT hbm) hcm) hlm
    have hres' : c.residual_state = quantizeCent t -
        (quantizeCent (quantizeCent t / combinedRate) - (k : ℚ) / 100) -
        c.city_tax - c.lodging_tax := by
      rw [hres, quantizeCent_of_centMult harg]
    rw [htot, hbase, hres']
    ring
  · rw [hbase]
    exact hpos

/-- A fallback result is a forward breakdown of a positive whole-cent base:
its total is exactly additive and its base positive. -/
theorem fallback_result {t : ℚ} {off : ℤ} {r : Breakdown}
    (hstep : fallbackStep (quantizeCent t) (quantizeCent t / combinedRate) off = some r) :
    r.total = r.base + r.state_tax + r.city_tax + r.lodging_tax ∧ 0 < r.base := by
  obtain ⟨hpos, hr, hmatch⟩ := fallbackStep_some hstep
  subst hr
  refine ⟨compute_breakdown_total_eq _, ?_⟩
  rw [compute_breakdown_base, quantizeCent_idem]
  exact hpos

theorem quantizeCent_zero : quantizeCent (0 : ℚ) = 0 := by
  have := quantizeCent_intCast_div 0
  simpa using this

/-- The reverse solver returns nothing for a zero target: candidates at or
below zero are skipped in both searches, and every positive candidate
overshoots the zero total by at least a cent. -/
theorem find_base_from_total_zero : find_base_from_total 0 = none := by
  rw [find_base_from_total_eq, quantizeCent_zero, zero_div, quantizeCent_zero]
  have hnil : (narrowBases (0 : ℚ)).filterMap (narrowCandidate (0 : ℚ)) = [] := by
    rw [List.filterMap_eq_nil_iff]
    intro b hb
    obtain ⟨k, hk, rfl⟩ := mem_narrowBases.mp hb
    apply narrowCandidate_nonpos
    have : (0 : ℚ) ≤ (k : ℚ) / 100 := by positivity
    linarith
  rw [hnil, show chooseBest [] = none from rfl]
  show fallbackOffsets.findSome? (fallbackStep 0 0) = none
  rw [List.findSome?_eq_none_iff]
  intro off hoff
  simp only [fallbackStep]
  have hcand : quantizeCent (0 + (off : ℚ) / 100) = ((off : ℤ) : ℚ) / 100 := by
    rw [zero_add]
    exact quantizeCent_intCast_div off
  rw [hcand]
  rcases le_or_lt off 0 with hoffle | hoffpos
  · rw [if_pos]
    have : ((off : ℤ) : ℚ) ≤ 0 := by exact_mod_cast hoffle
    linarith
  · rw [if_neg (by
      push_neg
      have : (0 : ℚ) < ((off : ℤ) : ℚ) := by exact_mod_cast hoffpos
      positivity)]
    rw [compute_breakdown_cents off (by omega)]
    rw [if_neg]
    push_neg
    have h1 : (1 : ℤ) ≤ totalCents off := le_trans (by omega) (self_le_totalCents (by omega))
    have h1q : (1 : ℚ) ≤ ((totalCents off : ℤ) : ℚ) := by exact_mod_cast h1
    rw [show ((totalCents off : ℤ) : ℚ) / 100 - 0 = ((totalCents off : ℤ) : ℚ) / 100 by ring,
      abs_of_nonneg (by linarith)]
    linarith

/-- The forward computation at a base that is already an exact cent multiple:
no initial quantization happens. -/
theorem compute_breakdown_of_centMult {b : ℚ} (hcm : CentMult b) :
    compute_breakdown b =
      ⟨b, (roundAwayFromZero (b * STATE_TAX_RATE * 100) : ℚ) / 100,
        quantizeCent (b * CITY_TAX_RATE), quantizeCent (b * LODGING_TAX_RATE),
        b + (roundAwayFromZero (b * STATE_TAX_RATE * 100) : ℚ) / 100 +
          quantizeCent (b * CITY_TAX_RATE) + quantizeCent (b * LODGING_TAX_RATE)⟩ := by
  simp only [compute_breakdown]
  rw [quantizeCent_of_centMult hcm]

/-! ### The claims -/

unseal Rat.mul Rat.add Rat.sub Rat.inv

theorem compute_breakdown_zero : compute_breakdown 0 = ⟨0, 0, 0, 0, 0⟩ := by decide

/-- Claim C1: for every base rate `b ≥ 0` the breakdown computed by
`compute_breakdown` satisfies `total = base + state_tax + city_tax +
lodging_tax` exactly, with no tolerance; and the same sum identity holds for
every breakdown returned by `find_base_from_total`. -/
theorem claim_c1 :
    (∀ b : ℚ, 0 ≤ b →
      (compute_breakdown b).total = (compute_breakdown b).base +
        (compute_breakdown b).state_tax + (compute_breakdown b).city_tax +
        (compute_breakdown b).lodging_tax) ∧
    (∀ t : ℚ, ∀ r : Breakdown, find_base_from_total t = some r →
      r.total = r.base + r.state_tax + r.city_tax + r.lodging_tax) := by
  constructor
  · intro b _
    exact compute_breakdown_total_eq b
  · intro t r h
    rcases find_base_from_total_cases h with ⟨c, hmem, rfl⟩ | ⟨off, hoffmem, hstep⟩
    · exact (narrow_result_sum hmem).1
    · exact (fallback_result hstep).1

/-- Witness for C1 at base `5`. -/
theorem claim_c1_witness :
    (compute_breakdown 5).total = (compute_breakdown 5).base +
      (compute_breakdown 5).state_tax + (compute_breakdown 5).city_tax +
      (compute_breakdown 5).lodging_tax :=
  claim_c1.1 5 (by norm_num)

/-- Claim C2 counterexample: at the exact-cent base `10.00` the solver
recovers base `9.99` with a penny moved into the state tax, and the
re-verification demanded by the claim fails: the forward total of the
recovered base is `11.29`, not the original `11.30`. -/
theorem claim_c2_counterexample :
    (compute_breakdown 10).total = 113 / 10 ∧
      find_base_from_total ((compute_breakdown 10).total) =
        some ⟨999 / 100, 7 / 10, 11 / 100, 1 / 2, 113 / 10⟩ ∧
      (compute_breakdown (999 / 100)).total ≠ 113 / 10 := by
  decide

/-- Claim C2 (amended): for every base that is a positive exact multiple of
one cent, `find_base_from_total` applied to the exact forward total returns a
breakdown whose base is within one cent of the original and whose total
field equals the original total exactly (the returned breakdown may shift
one cent between base and state tax, so re-running `compute_breakdown` on
the recovered base need not reproduce the total). -/
theorem claim_c2_amended (n : ℕ) (hn : 1 ≤ n) :
    ∃ r : Breakdown,
      find_base_from_total ((compute_breakdown ((n : ℚ) / 100)).total) = some r ∧
        |r.base - (n : ℚ) / 100| ≤ 1 / 100 ∧
        r.total = (compute_breakdown ((n : ℚ) / 100)).total := by
  have hcast : (n : ℚ) = ((n : ℤ) : ℚ) := by norm_cast
  have htot : (compute_breakdown ((n : ℚ) / 100)).total = (totalCents (n : ℤ) : ℚ) / 100 := by
    rw [hcast, compute_breakdown_cents (n : ℤ) (by omega)]
  rw [htot, hcast]
  exact solve_roundtrip_int (n : ℤ) (by omega)

/-- Witness for amended C2 at base `10.00` (1000 cents). -/
theorem claim_c2_amended_witness :
    ∃ r : Breakdown,
      find_base_from_total ((compute_breakdown (((1000 : ℕ) : ℚ) / 100)).total) = some r ∧
        |r.base - ((1000 : ℕ) : ℚ) / 100| ≤ 1 / 100 ∧
        r.total = (compute_breakdown (((1000 : ℕ) : ℚ) / 100)).total :=
  claim_c2_amended 1000 (by norm_num)

/-- Claim C3: the computed grand total is non-decreasing in the base rate. -/
theorem claim_c3 (b₁ b₂ : ℚ) (_hb : 0 ≤ b₁) (h : b₁ ≤ b₂) :
    (compute_breakdown b₁).total ≤ (compute_breakdown b₂).total :=
  compute_breakdown_total_mono h

/-- Witness for C3 at bases `1 ≤ 2`. -/
theorem claim_c3_witness : (compute_breakdown 1).total ≤ (compute_breakdown 2).total :=
  claim_c3 1 2 (by norm_num) (by norm_num)

/-- Claim C4: `compute_breakdown(100.00)` returns state tax `6.88` (raw
`6.875` rounded up), city tax `1.13`, lodging tax `5.00`, total `113.01`. -/
theorem claim_c4 :
    (compute_breakdown 100).state_tax = 688 / 100 ∧
      (compute_breakdown 100).city_tax = 113 / 100 ∧
      (compute_breakdown 100).lodging_tax = 5 ∧
      (compute_breakdown 100).total = 11301 / 100 := by
  decide

/-- Claim C5 counterexample: the claim's rounding bounds are stated against
the raw input `b`; for `b = 0.004` the input is first quantized to `0.00`,
so the state tax is `0.00`, strictly below the raw value `b × 6.875%`. -/
theorem claim_c5_counterexample :
    (compute_breakdown (4 / 1000)).state_tax < (4 / 1000) * STATE_TAX_RATE := by
  decide

/-- Claim C5 (amended): for every base `b ≥ 0` that is an exact cent
multiple (so that the initial quantization leaves it unchanged): the state
tax (rule UP) is at least the raw `b × 6.875%`, exceeds it by less than one
cent, and equals it when the raw value is an exact cent multiple; the city
and lodging taxes (rule HALF_UP) are nearest cents to their raw values, with
exact half-cent ties rounded up (away from zero for these non-negative
amounts). -/
theorem claim_c5_amended (b : ℚ) (hb : 0 ≤ b) (hcm : CentMult b) :
    (b * STATE_TAX_RATE ≤ (compute_breakdown b).state_tax ∧
      (compute_breakdown b).state_tax - b * STATE_TAX_RATE < 1 / 100 ∧
      (CentMult (b * STATE_TAX_RATE) →
        (compute_breakdown b).state_tax = b * STATE_TAX_RATE)) ∧
    ((∀ k : ℤ, |(compute_breakdown b).city_tax - b * CITY_TAX_RATE| ≤
        |(k : ℚ) / 100 - b * CITY_TAX_RATE|) ∧
      (|(compute_breakdown b).city_tax - b * CITY_TAX_RATE| = 1 / 200 →
        b * CITY_TAX_RATE ≤ (compute_breakdown b).city_tax)) ∧
    ((∀ k : ℤ, |(compute_breakdown b).lodging_tax - b * LODGING_TAX_RATE| ≤
        |(k : ℚ) / 100 - b * LODGING_TAX_RATE|) ∧
      (|(compute_breakdown b).lodging_tax - b * LODGING_TAX_RATE| = 1 / 200 →
        b * LODGING_TAX_RATE ≤ (compute_breakdown b).lodging_tax)) := by
  simp only [compute_breakdown_of_centMult hcm]
  have hsarg : (0 : ℚ) ≤ b * STATE_TAX_RATE * 100 :=
    mul_nonneg (mul_nonneg hb STATE_TAX_RATE_nonneg) (by norm_num)
  have hcarg : (0 : ℚ) ≤ b * CITY_TAX_RATE := mul_nonneg hb CITY_TAX_RATE_nonneg
  have hlarg : (0 : ℚ) ≤ b * LODGING_TAX_RATE := mul_nonneg hb LODGING_TAX_RATE_nonneg
  rw [roundAwayFromZero_of_nonneg hsarg]
  refine ⟨⟨?_, ?_, ?_⟩, ⟨?_, ?_⟩, ⟨?_, ?_⟩⟩
  · have := Int.le_ceil (b * STATE_TAX_RATE * 100)
    linarith
  · have := Int.ceil_lt_add_one (b * STATE_TAX_RATE * 100)
    linarith
  · rintro ⟨m, hm⟩
    have harg : b * STATE_TAX_RATE * 100 = (m : ℚ) := by rw [hm]; ring
    rw [harg, Int.ceil_intCast, hm]
  · intro k
    exact quantizeCent_nearest hcarg k
  · intro h
    exact quantizeCent_half_le hcarg h
  · intro k
    exact quantizeCent_nearest hlarg k
  · intro h
    exact quantizeCent_half_le hlarg h

/-- Witness for amended C5 at base `100.00`: the state clause. -/
theorem claim_c5_amended_witness :
    (100 : ℚ) * STATE_TAX_RATE ≤ (compute_breakdown 100).state_tax :=
  (claim_c5_amended 100 (by norm_num) ⟨10000, by norm_num⟩).1.1

/-- Claim C6 counterexample: `find_base_from_total(0.00)` does not return
the all-zero breakdown the claim describes — it returns nothing. -/
theorem claim_c6_counterexample :
    find_base_from_total 0 ≠ some ⟨0, 0, 0, 0, 0⟩ := by
  rw [find_base_from_total_zero]
  simp

/-- Claim C6 (amended): `find_base_from_total(0.00)` returns `None`: both
searches skip every candidate base `≤ 0`, and every positive candidate's
total exceeds the zero target by at least a cent. -/
theorem claim_c6_amended : find_base_from_total 0 = none :=
  find_base_from_total_zero

/-- Claim C7 counterexample: a negative base is not rejected: `-1.00` is
processed into a full (negative) breakdown with away-from-zero roundings. -/
theorem claim_c7_counterexample :
    compute_breakdown (-1) = ⟨-1, -7 / 100, -1 / 100, -1 / 20, -113 / 100⟩ := by
  decide

/-- Claim C7 (amended): `compute_breakdown` performs no input validation: a
negative base is processed by the same formulas into a breakdown whose base
is the cent-quantized input and whose total is non-positive; non-negativity
is enforced only by the UI input widget, outside this function. -/
theorem claim_c7_amended (b : ℚ) (hb : b < 0) :
    (compute_breakdown b).base = quantizeCent b ∧ (compute_breakdown b).total ≤ 0 := by
  refine ⟨rfl, ?_⟩
  have hmono := compute_breakdown_total_mono (le_of_lt hb)
  rw [compute_breakdown_zero] at hmono
  exact hmono

/-- Witness for amended C7 at base `-1.00`. -/
theorem claim_c7_amended_witness :
    (compute_breakdown (-1)).base = quantizeCent (-1) ∧ (compute_breakdown (-1)).total ≤ 0 :=
  claim_c7_amended (-1) (by norm_num)

/-- Claim C8 counterexample: the narrow search examines no candidate above
the naive base: with naive base `100.00`, the candidate `100.01` — which a
window of `±20` cents around the naive base would contain — is not among the
examined bases. -/
theorem claim_c8_counterexample : (100 : ℚ) + 1 / 100 ∉ narrowBases (100 : ℚ) := by
  intro hmem
  obtain ⟨k, hk, heq⟩ := mem_narrowBases.mp hmem
  have h1 : (k : ℚ) = -1 := by linarith
  have h2 : (0 : ℚ) ≤ (k : ℚ) := by positivity
  linarith

/-- Claim C8 (amended): the narrow search examines exactly the 21 one-cent
candidates from the naive base down to 20 cents below it (none above), and
the fallback scan tests exactly the 601 one-cent offsets from `-3.00` to
`+3.00` around the unquantized estimate. -/
theorem claim_c8_amended :
    (∀ naive x : ℚ, x ∈ narrowBases naive ↔
      ∃ k : ℕ, k ≤ 20 ∧ x = naive - (k : ℚ) / 100) ∧
    fallbackOffsets.length = 601 ∧
    (∀ o : ℤ, o ∈ fallbackOffsets ↔ -300 ≤ o ∧ o ≤ 300) := by
  refine ⟨?_, ?_, ?_⟩
  · intro naive x
    rw [mem_narrowBases]
    constructor
    · rintro ⟨k, hk, rfl⟩
      exact ⟨k, by omega, rfl⟩
    · rintro ⟨k, hk, rfl⟩
      exact ⟨k, by omega, rfl⟩
  · unfold fallbackOffsets
    rw [List.length_map, List.length_range]
  · intro o
    unfold fallbackOffsets
    rw [List.mem_map]
    constructor
    · rintro ⟨i, hi, rfl⟩
      have := List.mem_range.mp hi
      omega
    · rintro ⟨h1, h2⟩
      exact ⟨(o + 300).toNat, List.mem_range.mpr (by omega), by omega⟩

/-- Claim C9: whenever `find_base_from_total` returns a breakdown, its base
is strictly positive: every candidate base `≤ 0` is skipped in both the
narrow search and the fallback scan. -/
theorem claim_c9 (t : ℚ) (r : Breakdown) (h : find_base_from_total t = some r) :
    0 < r.base := by
  rcases find_base_from_total_cases h with ⟨c, hmem, rfl⟩ | ⟨off, hoffmem, hstep⟩
  · exact (narrow_result_sum hmem).2
  · exact (fallback_result hstep).2

/-- Witness for C9 at target `113.01`. -/
theorem claim_c9_witness :
    0 < (Breakdown.mk 100 (688 / 100) (113 / 100) 5 (11301 / 100)).base :=
  claim_c9 (11301 / 100) ⟨100, 688 / 100, 113 / 100, 5, 11301 / 100⟩ (by decide)

/-- Claim C10: `compute_breakdown` quantizes its input to the cent before
computing any tax: inputs with the same HALF_UP cent rounding give identical
breakdowns, and the returned base is the cent-rounded value. -/
theorem claim_c10 (b₁ b₂ : ℚ) (h : quantizeCent b₁ = quantizeCent b₂) :
    compute_breakdown b₁ = compute_breakdown b₂ ∧
      (compute_breakdown b₁).base = quantizeCent b₁ :=
  ⟨compute_breakdown_congr h, rfl⟩

/-- Witness for C10 at the pair `0.004` and `0`. -/
theorem claim_c10_witness :
    compute_breakdown (4 / 1000) = compute_breakdown 0 ∧
      (compute_breakdown (4 / 1000)).base = quantizeCent (4 / 1000) :=
  claim_c10 (4 / 1000) 0 (by decide)

end RateTool
